import Mathlib

/-!
Shallow embedding of the console games in `chezki770/python_projects`:
the two hangman variants (`src/Hangman_game/hangman_game.py`, namespace `HG`,
and `src/hangman_game.py`, namespace `SH`) and the trivia game
(`src/trivia_game/main.py`, namespace `TG`).

Python strings holding words and masked buffers are modelled as `List Char`;
player scores (Python `int`) as `Int`; the `random` oracle as an explicit
index argument; scripted console input as a `List Char` of already-validated
guesses (the source's `get_valid_input`/`correct_input` loop only ever
returns a single lowered alphabetic character or the sentinel `'.'`).

Definitions come first, then the development's theorems.
-/

/-- `scores[i] += d` on a Python list: out-of-range indices leave the list
unchanged (in valid game states the index is always in range). -/
def addAt : List Int → Nat → Int → List Int
  | [], _, _ => []
  | x :: xs, 0, d => (x + d) :: xs
  | x :: xs, Nat.succ i, d => x :: addAt xs i d

/-- `covered_word.replace(" ", "")`: drop the separating spaces of a masked
buffer (used by both hangman variants). -/
def stripSpaces (s : List Char) : List Char := s.filter (fun ch => ch ≠ ' ')

namespace HG

/-- A word-list entry `{word, hint}` from the hangman JSON file. -/
structure WEntry where
  word : List Char
  hint : String
deriving DecidableEq, Repr

/-- `display_covered_word`: `"_ " * len(word)`. -/
def display_covered_word (w : List Char) : List Char :=
  (w.map (fun _ => ['_', ' '])).flatten

/-- The `for index, letter in enumerate(random_word)` loop body of
`update_covered_word`: assign `new_covered_word[index] = guessed_letter`
and bump the score at every matching index. -/
def update_go (g : Char) : List (Nat × Char) → List Char → Nat → List Char × Nat
  | [], buf, s => (buf, s)
  | (i, c) :: rest, buf, s =>
    if c = g then update_go g rest (buf.set i g) (s + 1)
    else update_go g rest buf s

/-- `update_covered_word(guessed_letter, random_word, covered_word)`:
strip the spaces, reveal every position of the word holding the guess,
count those positions as the score, and re-join with spaces. -/
def update_covered_word (g : Char) (w : List Char) (cov : List Char) :
    List Char × Nat :=
  let r := update_go g w.enum (stripSpaces cov) 0
  (List.intersperse ' ' r.1, r.2)

/-- What `play_turn` returns: the `game_running` flag, the new covered word,
the score earned this turn, and the (possibly grown) set of tried letters. -/
structure TurnResult where
  running : Bool
  covered : List Char
  score : Nat
  tried : List Char
deriving DecidableEq, Repr

/-- `play_turn(player, random_word, covered_word, tried_letters)` fed one
already-validated input character `u`: the sentinel `'.'` ends the game; an
already-tried letter is rejected with no effect; otherwise the letter is
recorded and, when it occurs in the word, the covered word is updated and the
occurrence count is earned as score. -/
def play_turn (u : Char) (word : List Char) (covered : List Char)
    (tried : List Char) : TurnResult :=
  if u = '.' then ⟨false, covered, 0, tried⟩
  else if tried.contains u then ⟨true, covered, 0, tried⟩
  else
    let tried' := u :: tried
    if word.contains u then
      let r := update_covered_word u word covered
      ⟨true, r.1, r.2, tried'⟩
    else ⟨true, covered, 0, tried'⟩

/-- The transient state of one word's round in `main`, plus the persistent
player scores. -/
structure RoundState where
  covered : List Char
  tried : List Char
  scores : List Int
  turn : Nat
  running : Bool
deriving DecidableEq, Repr

/-- The nested `while "_" in covered_word.replace(" ", "")` / `for player in
players` loop of `main`, driven by the scripted inputs: before each turn the
blank check is re-evaluated, the acting player is `turn % n`, and after each
turn the score earned is added to that player and the turn advances. An empty
input script leaves the state as is (the console would block). -/
def playRound (word : List Char) (n : Nat) : RoundState → List Char → RoundState
  | st, [] => st
  | st, u :: rest =>
    if ((stripSpaces st.covered).contains '_') = false then st
    else
      let r := play_turn u word st.covered st.tried
      let st' : RoundState :=
        ⟨r.covered, r.tried, addAt st.scores (st.turn % n) r.score,
          st.turn + 1, r.running⟩
      if r.running then playRound word n st' rest else st'

/-- One iteration of the outer `while word_list['words'] and game_running`
loop of `main` (lines 92-104): pick the word at `idx`, play the round, then
`word_list['words'].pop(word_index)` — the pop is unconditional, so it runs
even when the round ended through the quit sentinel. -/
def mainStep (words : List WEntry) (idx : Nat) (n : Nat) (scores : List Int)
    (inputs : List Char) : List WEntry × RoundState :=
  let w := (words.getD idx ⟨[], ""⟩).word
  let st := playRound w n ⟨display_covered_word w, [], scores, 0, true⟩ inputs
  (words.eraseIdx idx, st)

/-- The possible states of the JSON file handed to `load_word_list`. -/
inductive FileRead where
  | missing
  | badJson
  | content (hasWordsList : Bool) (words : List WEntry)
deriving DecidableEq

/-- `load_word_list`: `exit(1)` on a missing file, invalid JSON, or a missing
or non-list `'words'` key; otherwise the parsed word list. The `Except` error
value is the process exit code. -/
def load_word_list : FileRead → Except Nat (List WEntry)
  | .missing => .error 1
  | .badJson => .error 1
  | .content false _ => .error 1
  | .content true ws => .ok ws

end HG

namespace SH

/-- `cowerdWord(random_word)`: `"_ " * len(random_word)`. -/
def cowerdWord (w : List Char) : List Char :=
  (w.map (fun _ => ['_', ' '])).flatten

/-- The `for index, letter in enumerate(random_word)` loop of
`if_letter_in_word`: reveal every position of the word holding the guess. -/
def sh_go (g : Char) : List (Nat × Char) → List Char → List Char
  | [], buf => buf
  | (i, c) :: rest, buf =>
    if c = g then sh_go g rest (buf.set i g) else sh_go g rest buf

/-- `if_letter_in_word(guessed_letter, random_word, cowerd_word)`: strip the
spaces, reveal matching positions, re-join with spaces. No score here — the
caller adds a flat 1 to the acting player. -/
def if_letter_in_word (g : Char) (w cov : List Char) : List Char :=
  List.intersperse ' ' (sh_go g w.enum (stripSpaces cov))

/-- The in-round state of `main` in `src/hangman_game.py`: the masked buffer
(with its spaces), the per-player scores, the 1-based `turn_of_players`
counter (which persists across rounds), and the `game_running` flag. -/
structure RState where
  cov : List Char
  scores : List Int
  turn : Nat
  running : Bool
deriving DecidableEq, Repr

/-- One iteration of the `while "_" in cowerd_word` body (lines 59-75), fed
one validated input `u`: the turn counter is advanced to `turn % n + 1`
before asking; `'.'` stops the game; a letter present in the word updates the
buffer and adds a flat `1` to the acting player `turn - 1` — there is no
record of already-guessed letters in this variant. -/
def shTurn (word : List Char) (n : Nat) (st : RState) (u : Char) : RState :=
  let t := st.turn % n + 1
  if u = '.' then ⟨st.cov, st.scores, t, false⟩
  else if word.contains u then
    ⟨if_letter_in_word u word st.cov, addAt st.scores (t - 1) 1, t, st.running⟩
  else ⟨st.cov, st.scores, t, st.running⟩

/-- The `while "_" in cowerd_word` loop, driven by the scripted inputs. -/
def shRound (word : List Char) (n : Nat) : RState → List Char → RState
  | st, [] => st
  | st, u :: rest =>
    if (st.cov.contains '_') = false then st
    else
      let st' := shTurn word n st u
      if st'.running then shRound word n st' rest else st'

/-- One iteration of the outer `while word_list and game_running` loop of
`main` (lines 53-79): play the round on the word at `idx`; the
`word_list.pop` / `hint_list.pop` pair runs only under `if game_running:`. -/
def shMainStep (words : List (List Char)) (hints : List String) (idx n : Nat)
    (scores : List Int) (turn0 : Nat) (inputs : List Char) :
    (List (List Char) × List String) × RState :=
  let w := words.getD idx []
  let st := shRound w n ⟨cowerdWord w, scores, turn0, true⟩ inputs
  (if st.running then (words.eraseIdx idx, hints.eraseIdx idx)
   else (words, hints), st)

end SH

namespace TG

/-- A validated trivia question record (`Question` in `src/trivia_game/main.py`).
Distinct Python objects may hold equal fields, and `list.remove` compares by
identity there, so list positions (not record equality) identify questions in
the pool model below. -/
structure Question where
  question : String
  options : List String
  correct_answer : Int
  category : String
  difficulty : String
deriving DecidableEq, Repr

/-- `Question.is_correct(answer)`: `self.correct_answer == answer`. -/
def is_correct (q : Question) (answer : Int) : Bool :=
  q.correct_answer == answer

/-- The filter predicate of `select_question`: the question matches when each
requested field (if any) equals the question's field after `.lower()`. -/
def matchesFilter (cat diff : Option String) (q : Question) : Bool :=
  (match cat with
   | none => true
   | some c => q.category.toLower == c.toLower) &&
  (match diff with
   | none => true
   | some d => q.difficulty.toLower == d.toLower)

/-- The `available_questions` list comprehension of `select_question`. -/
def available_questions (qs : List Question) (cat diff : Option String) :
    List Question :=
  qs.filter (matchesFilter cat diff)

/-- `select_question(category, difficulty)`: returns `False` leaving
`current_question` untouched when nothing matches; otherwise sets
`current_question` to a random member of the filtered list (modelled by the
oracle index `k`) and returns `True`. -/
def select_question (qs : List Question) (cat diff : Option String)
    (cur : Option Question) (k : Nat) : Bool × Option Question :=
  let avail := available_questions qs cat diff
  if avail.isEmpty then (false, cur)
  else (true, avail[k]?)

/-- `next_turn`: `current_player = (current_player + 1) % num_players`. -/
def next_turn (n : Nat) (p : Nat) : Nat := (p + 1) % n

/-- One iteration of the `play` loop after a successful selection, with the
current question at pool index `i` and the validated answer `a`:
`check_answer` adds one point to the current player exactly on a correct
answer, the question is removed from the pool exactly on a correct answer
(`list.remove` on the identical object, i.e. the one at index `i`), and the
turn rotates either way. -/
def playStep (qs : List Question) (scores : List Int) (n p i : Nat) (a : Int) :
    List Question × List Int × Nat :=
  match qs[i]? with
  | none => (qs, scores, p)
  | some q =>
    if is_correct q a then
      (qs.eraseIdx i, addAt scores p 1, next_turn n p)
    else
      (qs, scores, next_turn n p)

/-- `max(self.scores)` (the caller guarantees a non-empty list). -/
def max_score : List Int → Int
  | [] => 0
  | s :: rest => rest.foldl max s

/-- The `winners` comprehension of `print_final_scores`: the names paired
with the maximum score. -/
def winners (names : List String) (scores : List Int) : List String :=
  ((names.zip scores).filter (fun p => p.2 == max_score scores)).map
    (fun p => p.1)

/-- The final announcement of `print_final_scores`: a sole winner when
`len(winners) == 1`, otherwise a tie between all of them. -/
inductive Announcement where
  | sole (w : String)
  | tie (ws : List String)
deriving DecidableEq, Repr

def final_announcement (names : List String) (scores : List Int) :
    Announcement :=
  match winners names scores with
  | [w] => .sole w
  | ws => .tie ws

/-- The data-source argument of trivia's `main`: `--file`, `--api`, or
neither; the loaders (`load_questions` / `fetch_questions`) surface every
failure as an empty question list, which is what the parameter records. -/
inductive ArgsT where
  | file (qs : List Question)
  | api (qs : List Question)
  | noSource
deriving DecidableEq

/-- How trivia's `main` ends before any game is played. -/
inductive MainOutcome where
  | noArgs
  | noQuestions
  | played
deriving DecidableEq, Repr

/-- Trivia's `main`, reduced to its exit code and outcome: every path ends
in a plain `return` (there is no `exit`/`sys.exit` call in the program), so
the process exit code is 0 on all of them — including a failed load, which
reaches `main` as an empty question list. -/
def trivia_main : ArgsT → Nat × MainOutcome
  | .noSource => (0, .noArgs)
  | .file qs => if qs.isEmpty then (0, .noQuestions) else (0, .played)
  | .api qs => if qs.isEmpty then (0, .noQuestions) else (0, .played)

end TG

/-! ## Helper lemmas -/

theorem addAt_length (l : List Int) (i : Nat) (d : Int) :
    (addAt l i d).length = l.length := by
  induction l generalizing i with
  | nil => rfl
  | cons x xs ih =>
    cases i with
    | zero => simp [addAt]
    | succ j => simp [addAt, ih]

theorem addAt_getD_same (l : List Int) (i : Nat) (d : Int) (h : i < l.length) :
    (addAt l i d).getD i 0 = l.getD i 0 + d := by
  induction l generalizing i with
  | nil => simp at h
  | cons x xs ih =>
    cases i with
    | zero => simp [addAt]
    | succ j =>
      simp only [addAt, List.getD_cons_succ]
      exact ih j (by simpa using h)

theorem addAt_getD_other (l : List Int) (i j : Nat) (d : Int) (hne : j ≠ i) :
    (addAt l i d).getD j 0 = l.getD j 0 := by
  induction l generalizing i j with
  | nil => rfl
  | cons x xs ih =>
    cases i with
    | zero =>
      cases j with
      | zero => exact absurd rfl hne
      | succ j' => simp [addAt]
    | succ i' =>
      cases j with
      | zero => simp [addAt]
      | succ j' =>
        simp only [addAt, List.getD_cons_succ]
        exact ih i' j' (fun h => hne (by simp [h]))

theorem addAt_getD_mono (l : List Int) (i j : Nat) (d : Int) (hd : 0 ≤ d) :
    l.getD j 0 ≤ (addAt l i d).getD j 0 := by
  by_cases hji : j = i
  · subst hji
    by_cases hj : j < l.length
    · rw [addAt_getD_same l j d hj]; omega
    · have h1 : (addAt l j d).getD j 0 = 0 := by
        apply List.getD_eq_default
        rw [addAt_length]; omega
      have h2 : l.getD j 0 = 0 := List.getD_eq_default _ _ (by omega)
      omega
  · rw [addAt_getD_other l i j d hji]

theorem addAt_zero (l : List Int) (i : Nat) : addAt l i 0 = l := by
  induction l generalizing i with
  | nil => rfl
  | cons x xs ih =>
    cases i with
    | zero => simp [addAt]
    | succ j => simp [addAt, ih]

theorem set_getElem?_same (l : List Char) (i : Nat) (a : Char) :
    (l.set i a)[i]? = if i < l.length then some a else none := by
  rcases Nat.lt_or_ge i l.length with h | h
  · simp [List.getElem?_set_self', List.getElem?_eq_getElem h, Function.const, h]
  · have h2 : l[i]? = none := List.getElem?_eq_none (by omega)
    rw [List.getElem?_set_self', h2, if_neg (by omega)]
    rfl

theorem update_go_length (g : Char) (ps : List (Nat × Char)) (buf : List Char)
    (s : Nat) : (HG.update_go g ps buf s).1.length = buf.length := by
  induction ps generalizing buf s with
  | nil => rfl
  | cons p rest ih =>
    obtain ⟨i, c⟩ := p
    simp only [HG.update_go]
    by_cases hc : c = g
    · rw [if_pos hc, ih, List.length_set]
    · rw [if_neg hc, ih]

theorem update_go_score (g : Char) (ps : List (Nat × Char)) (buf : List Char)
    (s : Nat) :
    (HG.update_go g ps buf s).2 = s + ps.countP (fun p => p.2 == g) := by
  induction ps generalizing buf s with
  | nil => simp [HG.update_go]
  | cons p rest ih =>
    obtain ⟨i, c⟩ := p
    simp only [HG.update_go]
    by_cases hc : c = g
    · rw [if_pos hc, ih, List.countP_cons]
      simp [hc]
      omega
    · rw [if_neg hc, ih, List.countP_cons]
      simp [hc]

theorem update_go_getElem? (g : Char) (ps : List (Nat × Char)) (buf : List Char)
    (s : Nat) (j : Nat) :
    ((HG.update_go g ps buf s).1)[j]? =
      if ps.any (fun p => p.2 == g && p.1 == j) then (buf.set j g)[j]?
      else buf[j]? := by
  induction ps generalizing buf s with
  | nil => simp [HG.update_go]
  | cons p rest ih =>
    obtain ⟨i, c⟩ := p
    simp only [HG.update_go, List.any_cons]
    by_cases hc : c = g
    · rw [if_pos hc, ih]
      by_cases hij : i = j
      · have hcond : ((c == g && (i == j)) || rest.any (fun p => p.2 == g && p.1 == j)) = true := by
          simp [hc, hij]
        rw [if_pos hcond, hij, List.set_set, ite_self]
      · have hf : ((c == g) && (i == j)) = false := by simp [hij]
        simp only [hf, Bool.false_or]
        by_cases hrest : rest.any (fun p => p.2 == g && p.1 == j) = true
        · rw [if_pos hrest, if_pos hrest, List.set_comm _ _ _ hij,
            List.getElem?_set_ne hij]
        · rw [if_neg hrest, if_neg hrest]
          exact List.getElem?_set_ne hij
    · rw [if_neg hc]
      have hf : ((c == g) && (i == j)) = false := by simp [hc]
      simp only [hf, Bool.false_or]
      exact ih buf s

theorem enum_any_iff (w : List Char) (g : Char) (j : Nat) :
    (w.enum.any (fun p => p.2 == g && p.1 == j)) = true ↔ w[j]? = some g := by
  rw [List.any_eq_true]
  constructor
  · rintro ⟨⟨i, c⟩, hmem, hf⟩
    simp only [beq_iff_eq, Bool.and_eq_true] at hf
    obtain ⟨h1, h2⟩ := hf
    subst h1
    subst h2
    exact List.mk_mem_enum_iff_getElem?.mp hmem
  · intro h
    exact ⟨(j, g), List.mk_mem_enum_iff_getElem?.mpr h, by simp⟩

theorem update_go_mem (g : Char) (ps : List (Nat × Char)) (buf : List Char)
    (s : Nat) : ∀ c ∈ (HG.update_go g ps buf s).1, c ∈ buf ∨ c = g := by
  induction ps generalizing buf s with
  | nil => exact fun c hc => Or.inl hc
  | cons p rest ih =>
    obtain ⟨i, ch⟩ := p
    intro c hc
    simp only [HG.update_go] at hc
    by_cases hch : ch = g
    · rw [if_pos hch] at hc
      rcases ih (buf.set i g) (s + 1) c hc with h | h
      · exact (List.mem_or_eq_of_mem_set h).imp_right id
      · exact Or.inr h
    · rw [if_neg hch] at hc
      exact ih buf s c hc

theorem stripSpaces_intersperse (l : List Char) (h : ∀ c ∈ l, c ≠ ' ') :
    stripSpaces (List.intersperse ' ' l) = l := by
  induction l with
  | nil => rfl
  | cons a t ih =>
    cases t with
    | nil => simp [stripSpaces, h a (by simp)]
    | cons b t2 =>
      have step : List.intersperse ' ' (a :: b :: t2) =
          a :: ' ' :: List.intersperse ' ' (b :: t2) := by
        simp [List.intersperse]
      have hrest : ∀ c ∈ b :: t2, c ≠ ' ' := fun c hc => h c (by simp [hc])
      have ih2 := ih hrest
      rw [step]
      simp only [stripSpaces, List.filter_cons] at ih2 ⊢
      simp only [ne_eq, decide_not] at ih2
      simp [h a (by simp), ih2]

/-- Stripping the spaces of `update_covered_word`'s result recovers the raw
updated buffer (no letter of the buffer is a space when the guess is not). -/
theorem update_covered_word_strip (g : Char) (w cov : List Char)
    (hg : g ≠ ' ') :
    stripSpaces (HG.update_covered_word g w cov).1 =
      (HG.update_go g w.enum (stripSpaces cov) 0).1 := by
  apply stripSpaces_intersperse
  intro c hc
  rcases update_go_mem g w.enum (stripSpaces cov) 0 c hc with h | h
  · simp only [stripSpaces, List.mem_filter, decide_eq_true_eq] at h
    exact h.2
  · rw [h]; exact hg

/-- The score returned by `update_covered_word` is exactly the number of
occurrences of the guessed letter in the word. -/
theorem update_covered_word_score (g : Char) (w cov : List Char) :
    (HG.update_covered_word g w cov).2 = w.count g := by
  show (HG.update_go g w.enum (stripSpaces cov) 0).2 = w.count g
  rw [update_go_score, Nat.zero_add]
  have h1 : (w.enum.countP (fun p => p.2 == g)) =
      (w.enum.map Prod.snd).countP (fun c => c == g) := by
    rw [List.countP_map]
    rfl
  rw [h1, List.enum_map_snd, List.count_eq_countP]

theorem sh_go_eq_update_go (g : Char) (ps : List (Nat × Char))
    (buf : List Char) (s : Nat) :
    SH.sh_go g ps buf = (HG.update_go g ps buf s).1 := by
  induction ps generalizing buf s with
  | nil => rfl
  | cons p rest ih =>
    obtain ⟨i, c⟩ := p
    simp only [SH.sh_go, HG.update_go]
    by_cases hc : c = g
    · rw [if_pos hc, if_pos hc, ih]
    · rw [if_neg hc, if_neg hc, ih]

theorem foldl_max_bounds (a : Int) (l : List Int) :
    a ≤ l.foldl max a ∧ ∀ s ∈ l, s ≤ l.foldl max a := by
  induction l generalizing a with
  | nil => exact ⟨le_refl a, by simp⟩
  | cons x xs ih =>
    obtain ⟨h1, h2⟩ := ih (max a x)
    refine ⟨le_trans (le_max_left a x) h1, ?_⟩
    intro s hs
    rcases List.mem_cons.mp hs with rfl | hs
    · exact le_trans (le_max_right a s) h1
    · exact h2 s hs

theorem foldl_max_mem (a : Int) (l : List Int) :
    l.foldl max a = a ∨ l.foldl max a ∈ l := by
  induction l generalizing a with
  | nil => exact Or.inl rfl
  | cons x xs ih =>
    simp only [List.foldl_cons]
    rcases ih (max a x) with h | h
    · rcases max_cases a x with ⟨he, _⟩ | ⟨he, _⟩
      · exact Or.inl (by rw [h, he])
      · exact Or.inr (by rw [h, he]; exact List.mem_cons_self x xs)
    · exact Or.inr (List.mem_cons_of_mem x h)

theorem max_score_mem (scores : List Int) (h : scores ≠ []) :
    TG.max_score scores ∈ scores := by
  match scores with
  | s :: rest =>
    rcases foldl_max_mem s rest with he | he
    · simp [TG.max_score, he]
    · exact List.mem_cons_of_mem s (by simpa [TG.max_score] using he)

theorem le_max_score (scores : List Int) (s : Int) (hs : s ∈ scores) :
    s ≤ TG.max_score scores := by
  match scores with
  | a :: rest =>
    obtain ⟨h1, h2⟩ := foldl_max_bounds a rest
    rcases List.mem_cons.mp hs with rfl | hmem
    · simpa [TG.max_score] using h1
    · simpa [TG.max_score] using h2 s hmem

theorem mem_winners_iff (names : List String) (scores : List Int)
    (w : String) :
    w ∈ TG.winners names scores ↔
      ∃ s : Int, (w, s) ∈ names.zip scores ∧ s = TG.max_score scores := by
  simp only [TG.winners, List.mem_map, List.mem_filter, beq_iff_eq]
  constructor
  · rintro ⟨⟨nm, s⟩, ⟨hmem, hmax⟩, hfst⟩
    exact ⟨s, by simpa [← hfst] using hmem, hmax⟩
  · rintro ⟨s, hmem, hmax⟩
    exact ⟨(w, s), ⟨hmem, hmax⟩, rfl⟩

theorem next_turn_iterate (n p k : Nat) (hp : p < n) :
    (TG.next_turn n)^[k] p = (p + k) % n := by
  induction k with
  | zero => simp [Nat.mod_eq_of_lt hp]
  | succ k ih =>
    rw [Function.iterate_succ_apply', ih]
    show ((p + k) % n + 1) % n = (p + (k + 1)) % n
    have h := (Nat.mod_modEq (p + k) n).add_right 1
    have h2 : ((p + k) % n + 1) % n = (p + k + 1) % n := h
    rw [h2]
    ring_nf

/-! ## Claims -/

/-- C5: for every non-empty player list, the winners computed by
`print_final_scores` are exactly the players whose score equals the maximum
score (`max_score` really is the maximum: a member of the list bounding every
member); with scores `[3,5,5,2]` and names `[A,B,C,D]` the result is a tie
between `B` and `C`, and with scores `[4,2,1]` the first player is the sole
winner. -/
theorem C5_winner_logic :
    (∀ (names : List String) (scores : List Int) (w : String),
      w ∈ TG.winners names scores ↔
        ∃ s : Int, (w, s) ∈ names.zip scores ∧ s = TG.max_score scores)
    ∧ (∀ scores : List Int, scores ≠ [] →
        TG.max_score scores ∈ scores ∧ ∀ s ∈ scores, s ≤ TG.max_score scores)
    ∧ TG.winners ["A", "B", "C", "D"] [3, 5, 5, 2] = ["B", "C"]
    ∧ TG.final_announcement ["A", "B", "C", "D"] [3, 5, 5, 2] =
        TG.Announcement.tie ["B", "C"]
    ∧ TG.winners ["A", "B", "C"] [4, 2, 1] = ["A"]
    ∧ TG.final_announcement ["A", "B", "C"] [4, 2, 1] =
        TG.Announcement.sole "A" := by
  refine ⟨mem_winners_iff, ?_, ?_, ?_, ?_, ?_⟩
  · exact fun scores h =>
      ⟨max_score_mem scores h, fun s hs => le_max_score scores s hs⟩
  · decide
  · decide
  · decide
  · decide

theorem C5_winner_logic_witness :
    TG.max_score [3, 5, 5, 2] ∈ ([3, 5, 5, 2] : List Int) ∧
      ∀ s ∈ ([3, 5, 5, 2] : List Int), s ≤ TG.max_score [3, 5, 5, 2] :=
  C5_winner_logic.2.1 [3, 5, 5, 2] (by decide)

/-- C7: `select_question` with a category and/or difficulty filter only ever
selects a question whose category and difficulty match the filter
case-insensitively; it fails exactly when no question in the pool matches,
and on failure `current_question` keeps its previous value. -/
theorem C7_select_question_filter :
    ∀ (qs : List TG.Question) (cat diff : Option String)
      (cur : Option TG.Question) (k : Nat),
      (∀ q : TG.Question, (TG.available_questions qs cat diff)[k]? = some q →
        TG.matchesFilter cat diff q = true
        ∧ (∀ c, cat = some c → q.category.toLower = c.toLower)
        ∧ (∀ d, diff = some d → q.difficulty.toLower = d.toLower))
      ∧ ((TG.select_question qs cat diff cur k).1 = false ↔
          ∀ q ∈ qs, TG.matchesFilter cat diff q = false)
      ∧ ((TG.select_question qs cat diff cur k).1 = false →
          (TG.select_question qs cat diff cur k).2 = cur)
      ∧ ((TG.select_question qs cat diff cur k).1 = true →
          (TG.select_question qs cat diff cur k).2 =
            (TG.available_questions qs cat diff)[k]?) := by
  intro qs cat diff cur k
  refine ⟨?_, ?_, ?_, ?_⟩
  · intro q hq
    have hmem : q ∈ TG.available_questions qs cat diff := List.getElem?_mem hq
    have hfil : TG.matchesFilter cat diff q = true :=
      (List.mem_filter.mp hmem).2
    refine ⟨hfil, ?_, ?_⟩
    · intro c hc
      subst hc
      have := (Bool.and_eq_true _ _).mp hfil
      simpa using this.1
    · intro d hd
      subst hd
      have := (Bool.and_eq_true _ _).mp hfil
      simpa using this.2
  · cases hb : (TG.available_questions qs cat diff).isEmpty with
    | true =>
      have hemp : TG.available_questions qs cat diff = [] :=
        List.isEmpty_iff.mp hb
      simp only [TG.select_question, hb, if_true, true_iff]
      intro q hq
      have := List.filter_eq_nil_iff.mp hemp q hq
      simpa using this
    | false =>
      have hne : TG.available_questions qs cat diff ≠ [] := by
        intro hcon
        rw [hcon] at hb
        simp at hb
      simp only [TG.select_question, hb]
      constructor
      · intro hcon
        simp at hcon
      · intro hall
        exact absurd
          (List.filter_eq_nil_iff.mpr (fun q hq => by simp [hall q hq])) hne
  · intro hfail
    cases hb : (TG.available_questions qs cat diff).isEmpty with
    | true => simp [TG.select_question, hb]
    | false => simp [TG.select_question, hb] at hfail
  · intro hok
    cases hb : (TG.available_questions qs cat diff).isEmpty with
    | true => simp [TG.select_question, hb] at hok
    | false => simp [TG.select_question, hb]

theorem C7_select_question_filter_witness :
    TG.matchesFilter none none
      { question := "q", options := [], correct_answer := 0,
        category := "math", difficulty := "easy" } = true :=
  ((C7_select_question_filter
    [{ question := "q", options := [], correct_answer := 0,
       category := "math", difficulty := "easy" }]
    none none none 0).1
    { question := "q", options := [], correct_answer := 0,
      category := "math", difficulty := "easy" } (by rfl)).1

/-- C8: the round-robin rotation `next_turn` maps player `p` to
`(p + 1) % n` and returns to the starting player after one full cycle of `n`
applications; in particular three applications with 3 players starting at
player 0 return to player 0. -/
theorem C8_round_robin :
    (∀ n p : Nat, 0 < n → p < n →
      TG.next_turn n p = (p + 1) % n
      ∧ (TG.next_turn n)^[n] p = p)
    ∧ (TG.next_turn 3)^[3] 0 = 0 := by
  constructor
  · intro n p hn hp
    refine ⟨rfl, ?_⟩
    rw [next_turn_iterate n p n hp, Nat.add_mod_right]
    exact Nat.mod_eq_of_lt hp
  · decide

theorem C8_round_robin_witness :
    TG.next_turn 3 1 = (1 + 1) % 3 ∧ (TG.next_turn 3)^[3] 1 = 1 :=
  C8_round_robin.1 3 1 (by decide) (by decide)

/-- C10: in the trivia `play` loop, a question is removed from the pool iff
the current player answers it correctly; a wrong answer leaves the pool and
all scores unchanged; a correct answer removes exactly the current question
(index `i`) and changes only the current player's score, by exactly 1. -/
theorem C10_answer_pool_frame :
    ∀ (qs : List TG.Question) (scores : List Int) (n p i : Nat) (a : Int)
      (q : TG.Question), qs[i]? = some q → p < scores.length →
      (q.correct_answer = a →
        (TG.playStep qs scores n p i a).1 = qs.eraseIdx i
        ∧ (TG.playStep qs scores n p i a).2.1.getD p 0 = scores.getD p 0 + 1
        ∧ (∀ j, j ≠ p →
            (TG.playStep qs scores n p i a).2.1.getD j 0 = scores.getD j 0)
        ∧ (TG.playStep qs scores n p i a).1.length + 1 = qs.length
        ∧ (∀ j, j < i → (TG.playStep qs scores n p i a).1[j]? = qs[j]?)
        ∧ (∀ j, i ≤ j → (TG.playStep qs scores n p i a).1[j]? = qs[j + 1]?))
      ∧ (q.correct_answer ≠ a →
          (TG.playStep qs scores n p i a).1 = qs
          ∧ (TG.playStep qs scores n p i a).2.1 = scores)
      ∧ ((TG.playStep qs scores n p i a).1 ≠ qs ↔ q.correct_answer = a) := by
  intro qs scores n p i a q hqs hp
  have hi : i < qs.length := (List.getElem?_eq_some.mp hqs).1
  have hstep : TG.playStep qs scores n p i a =
      if q.correct_answer = a then
        (qs.eraseIdx i, addAt scores p 1, TG.next_turn n p)
      else (qs, scores, TG.next_turn n p) := by
    simp only [TG.playStep, hqs, TG.is_correct]
    by_cases hca : q.correct_answer = a
    · rw [if_pos (by simp [hca]), if_pos hca]
    · rw [if_neg (by simp [hca]), if_neg hca]
  have hlen : (qs.eraseIdx i).length = qs.length - 1 := by
    rw [List.length_eraseIdx]
    simp [hi]
  have herase_ne : qs.eraseIdx i ≠ qs := by
    intro hcon
    rw [hcon] at hlen
    omega
  refine ⟨?_, ?_, ?_⟩
  · intro hca
    rw [hstep, if_pos hca]
    refine ⟨rfl, addAt_getD_same scores p 1 hp,
      fun j hj => addAt_getD_other scores p j 1 hj, by simpa [hlen] using by omega,
      fun j hj => List.getElem?_eraseIdx_of_lt qs i j hj,
      fun j hj => List.getElem?_eraseIdx_of_ge qs i j hj⟩
  · intro hca
    rw [hstep, if_neg hca]
    exact ⟨rfl, rfl⟩
  · constructor
    · intro hne
      by_contra hca
      rw [hstep, if_neg hca] at hne
      exact hne rfl
    · intro hca
      rw [hstep, if_pos hca]
      exact herase_ne

theorem C10_answer_pool_frame_witness :
    (TG.playStep
      [{ question := "q", options := ["a", "b"], correct_answer := 1,
         category := "c", difficulty := "d" }] [0] 2 0 0 1).1 =
      ([{ question := "q", options := ["a", "b"], correct_answer := 1,
          category := "c", difficulty := "d" }] :
        List TG.Question).eraseIdx 0
    ∧ (TG.playStep
        [{ question := "q", options := ["a", "b"], correct_answer := 1,
           category := "c", difficulty := "d" }] [0] 2 0 0 1).2.1.getD 0 0 =
        ([0] : List Int).getD 0 0 + 1 := by
  have h := C10_answer_pool_frame
    [{ question := "q", options := ["a", "b"], correct_answer := 1,
       category := "c", difficulty := "d" }] [0] 2 0 0 1
    { question := "q", options := ["a", "b"], correct_answer := 1,
      category := "c", difficulty := "d" } rfl (by decide)
  exact ⟨(h.1 rfl).1, (h.1 rfl).2.1⟩

theorem hg_playRound_mono (word : List Char) (n : Nat) (inputs : List Char) :
    ∀ (st : HG.RoundState) (j : Nat),
      st.scores.getD j 0 ≤ (HG.playRound word n st inputs).scores.getD j 0 := by
  induction inputs with
  | nil => exact fun st j => le_refl _
  | cons u rest ih =>
    intro st j
    simp only [HG.playRound]
    by_cases hb : ((stripSpaces st.covered).contains '_') = false
    · rw [if_pos hb]
    · rw [if_neg hb]
      have hmono : st.scores.getD j 0 ≤
          (addAt st.scores (st.turn % n)
            ((HG.play_turn u word st.covered st.tried).score : Int)).getD j 0 :=
        addAt_getD_mono _ _ _ _ (by exact_mod_cast Nat.zero_le _)
      by_cases hrun : (HG.play_turn u word st.covered st.tried).running = true
      · rw [if_pos hrun]
        exact le_trans hmono (ih _ j)
      · rw [if_neg hrun]
        exact hmono

theorem sh_shRound_mono (word : List Char) (n : Nat) (inputs : List Char) :
    ∀ (st : SH.RState) (j : Nat),
      st.scores.getD j 0 ≤ (SH.shRound word n st inputs).scores.getD j 0 := by
  induction inputs with
  | nil => exact fun st j => le_refl _
  | cons u rest ih =>
    intro st j
    simp only [SH.shRound]
    by_cases hb : (st.cov.contains '_') = false
    · rw [if_pos hb]
    · rw [if_neg hb]
      have hstep : ∀ st2 : SH.RState, st2 = SH.shTurn word n st u →
          st.scores.getD j 0 ≤ st2.scores.getD j 0 := by
        intro st2 h2
        subst h2
        simp only [SH.shTurn]
        by_cases hu : u = '.'
        · rw [if_pos hu]
        · rw [if_neg hu]
          by_cases hw : word.contains u = true
          · rw [if_pos hw]
            exact addAt_getD_mono _ _ _ _ (by omega)
          · rw [if_neg hw]
      by_cases hrun : (SH.shTurn word n st u).running = true
      · rw [if_pos hrun]
        exact le_trans (hstep _ rfl) (ih _ j)
      · rw [if_neg hrun]
        exact hstep _ rfl

theorem tg_playStep_mono (qs : List TG.Question) (scores : List Int)
    (n p i : Nat) (a : Int) (j : Nat) :
    scores.getD j 0 ≤ (TG.playStep qs scores n p i a).2.1.getD j 0 := by
  cases hqs : qs[i]? with
  | none => simp only [TG.playStep, hqs]; exact le_refl _
  | some q =>
    simp only [TG.playStep, hqs]
    by_cases hc : TG.is_correct q a = true
    · rw [if_pos hc]
      exact addAt_getD_mono _ _ _ _ (by omega)
    · rw [if_neg hc]

/-- C9: across every scoring operation of every game, scores never decrease
and stay non-negative, and each scoring step changes no counter except the
acting player's: the trivia `check_answer`/`play` step, the `Hangman_game`
round loop and the plain hangman round loop are all monotone on every
player's score and preserve non-negativity; and each single scoring step —
trivia's `playStep` for the current player `p`, one turn of the
`Hangman_game` round loop for the acting player `turn % n`, and the plain
variant's `shTurn` for the acting player `turn % n` — leaves every
non-acting player's score unchanged. -/
theorem C9_scores_monotone_nonneg :
    (∀ (qs : List TG.Question) (scores : List Int) (n p i : Nat) (a : Int)
      (j : Nat),
      scores.getD j 0 ≤ (TG.playStep qs scores n p i a).2.1.getD j 0)
    ∧ (∀ (qs : List TG.Question) (scores : List Int) (n p i : Nat) (a : Int)
        (j : Nat), (∀ j' : Nat, 0 ≤ scores.getD j' 0) →
        0 ≤ (TG.playStep qs scores n p i a).2.1.getD j 0)
    ∧ (∀ (word : List Char) (n : Nat) (st : HG.RoundState)
        (inputs : List Char) (j : Nat),
        st.scores.getD j 0 ≤ (HG.playRound word n st inputs).scores.getD j 0)
    ∧ (∀ (word : List Char) (n : Nat) (st : HG.RoundState)
        (inputs : List Char) (j : Nat),
        (∀ j' : Nat, 0 ≤ st.scores.getD j' 0) →
        0 ≤ (HG.playRound word n st inputs).scores.getD j 0)
    ∧ (∀ (word : List Char) (n : Nat) (st : SH.RState) (inputs : List Char)
        (j : Nat),
        st.scores.getD j 0 ≤ (SH.shRound word n st inputs).scores.getD j 0)
    ∧ (∀ (word : List Char) (n : Nat) (st : SH.RState) (inputs : List Char)
        (j : Nat), (∀ j' : Nat, 0 ≤ st.scores.getD j' 0) →
        0 ≤ (SH.shRound word n st inputs).scores.getD j 0)
    ∧ (∀ (qs : List TG.Question) (scores : List Int) (n p i : Nat) (a : Int)
        (j : Nat), j ≠ p →
        (TG.playStep qs scores n p i a).2.1.getD j 0 = scores.getD j 0)
    ∧ (∀ (word : List Char) (n : Nat) (st : SH.RState) (u : Char) (j : Nat),
        j ≠ st.turn % n → (SH.shTurn word n st u).scores.getD j 0 =
          st.scores.getD j 0)
    ∧ (∀ (word : List Char) (n : Nat) (st : HG.RoundState) (u : Char)
        (j : Nat), j ≠ st.turn % n →
        (HG.playRound word n st [u]).scores.getD j 0 =
          st.scores.getD j 0) := by
  refine ⟨fun qs scores n p i a j => tg_playStep_mono qs scores n p i a j,
    ?_, fun word n st inputs j => hg_playRound_mono word n inputs st j, ?_,
    fun word n st inputs j => sh_shRound_mono word n inputs st j, ?_, ?_, ?_,
    ?_⟩
  · intro qs scores n p i a j h
    exact le_trans (h j) (tg_playStep_mono qs scores n p i a j)
  · intro word n st inputs j h
    exact le_trans (h j) (hg_playRound_mono word n inputs st j)
  · intro word n st inputs j h
    exact le_trans (h j) (sh_shRound_mono word n inputs st j)
  · intro qs scores n p i a j hj
    cases hqs : qs[i]? with
    | none => simp only [TG.playStep, hqs]
    | some q =>
      simp only [TG.playStep, hqs]
      by_cases hc : TG.is_correct q a = true
      · rw [if_pos hc]
        exact addAt_getD_other scores p j 1 hj
      · rw [if_neg hc]
  · intro word n st u j hj
    simp only [SH.shTurn]
    by_cases hu : u = '.'
    · rw [if_pos hu]
    · rw [if_neg hu]
      by_cases hw : word.contains u = true
      · rw [if_pos hw]
        simpa using addAt_getD_other st.scores (st.turn % n + 1 - 1) j 1
          (by simpa using hj)
      · rw [if_neg hw]
  · intro word n st u j hj
    by_cases hb : ((stripSpaces st.covered).contains '_') = false
    · simp only [HG.playRound]
      rw [if_pos hb]
    · simp only [HG.playRound]
      rw [if_neg hb]
      by_cases hrun :
          (HG.play_turn u word st.covered st.tried).running = true
      · rw [if_pos hrun]
        exact addAt_getD_other st.scores (st.turn % n) j _ hj
      · rw [if_neg hrun]
        exact addAt_getD_other st.scores (st.turn % n) j _ hj

theorem C9_scores_monotone_nonneg_witness :
    0 ≤ (TG.playStep [] [0, 0] 2 0 0 0).2.1.getD 1 0 :=
  C9_scores_monotone_nonneg.2.1 [] [0, 0] 2 0 0 0 1
    (fun j' => by
      match j' with
      | 0 => exact le_refl 0
      | 1 => exact le_refl 0
      | Nat.succ (Nat.succ k) => simp)

theorem hg_play_turn_repeat (u : Char) (word cov tried : List Char)
    (hu : u ≠ '.') (ht : tried.contains u = true) :
    HG.play_turn u word cov tried = ⟨true, cov, 0, tried⟩ := by
  have htm : u ∈ tried := by simpa using ht
  simp [HG.play_turn, hu, htm]

theorem cowerdWord_contains_blank (w : List Char) (h : w ≠ []) :
    (SH.cowerdWord w).contains '_' = true := by
  match w with
  | a :: t => simp [SH.cowerdWord]

theorem display_contains_blank (w : List Char) (h : w ≠ []) :
    ((stripSpaces (HG.display_covered_word w)).contains '_') = true := by
  match w with
  | a :: t => simp [HG.display_covered_word, stripSpaces]

/-- C3 counterexample: in `src/hangman_game.py`, with the word `"aba"` and a
first guess of `'a'` (which occurs twice), the single player's score rises by
1, not by the occurrence count 2. -/
theorem C3_flat_point_counterexample :
    (SH.shRound ['a', 'b', 'a'] 1
      ⟨SH.cowerdWord ['a', 'b', 'a'], [0], 0, true⟩ ['a']).scores = [1]
    ∧ ['a', 'b', 'a'].count 'a' = 2 := by
  decide

/-- C3 amended: in the `Hangman_game` variant a correct guess awards exactly
1 point per occurrence of the guessed letter (`update_covered_word`'s score
is the occurrence count, and `play_turn` passes it through for a fresh
correct guess); in the `src/hangman_game.py` variant a correct guess awards
a flat 1 point to the acting player regardless of the occurrence count. -/
theorem C3_amended_scoring :
    (∀ (g : Char) (w cov : List Char),
      (HG.update_covered_word g w cov).2 = w.count g)
    ∧ (∀ (u : Char) (word cov tried : List Char),
        u ≠ '.' → tried.contains u = false → word.contains u = true →
        (HG.play_turn u word cov tried).score = word.count u)
    ∧ (∀ (word : List Char) (n : Nat) (st : SH.RState) (u : Char),
        u ≠ '.' → word.contains u = true →
        (SH.shTurn word n st u).scores =
          addAt st.scores (st.turn % n + 1 - 1) 1) := by
  refine ⟨update_covered_word_score, ?_, ?_⟩
  · intro u word cov tried hu ht hw
    have htm : u ∉ tried := by simpa using ht
    have hwm : u ∈ word := by simpa using hw
    simp [HG.play_turn, hu, htm, hwm, update_covered_word_score]
  · intro word n st u hu hw
    have hwm : u ∈ word := by simpa using hw
    simp [SH.shTurn, hu, hwm]

theorem C3_amended_scoring_witness :
    (HG.play_turn 'a' ['a', 'b', 'a'] ['_', ' ', '_', ' ', '_', ' ']
      []).score = ['a', 'b', 'a'].count 'a' :=
  C3_amended_scoring.2.1 'a' ['a', 'b', 'a'] ['_', ' ', '_', ' ', '_', ' ']
    [] (by decide) (by decide) (by decide)

/-- C4 counterexample: in `src/hangman_game.py` no letter is ever recorded
as already guessed — with the word `"ab"` and the script `['a', 'a']` the
second, repeated guess of `'a'` is processed as a fresh guess and awards a
second point (scores go `[0] → [1] → [2]`). -/
theorem C4_repeat_guess_counterexample :
    (SH.shRound ['a', 'b'] 1 ⟨SH.cowerdWord ['a', 'b'], [0], 0, true⟩
      ['a']).scores = [1]
    ∧ (SH.shRound ['a', 'b'] 1 ⟨SH.cowerdWord ['a', 'b'], [0], 0, true⟩
      ['a', 'a']).scores = [2] := by
  decide

/-- C4 amended: the `Hangman_game` variant rejects an already-tried letter —
the turn leaves the buffer, the tried set and every score unchanged — but
the rejected player is not reprompted: the round continues with the next
player (`turn + 1`). The `src/hangman_game.py` variant keeps no record of
guessed letters at all, so a repeated letter still present in the word is
processed as a fresh guess and awards a point again. -/
theorem C4_amended_repeat_guess :
    (∀ (u : Char) (word cov tried : List Char), u ≠ '.' →
      tried.contains u = true →
      HG.play_turn u word cov tried = ⟨true, cov, 0, tried⟩)
    ∧ (∀ (word : List Char) (n : Nat) (st : HG.RoundState) (u : Char)
        (rest : List Char), u ≠ '.' → st.tried.contains u = true →
        ((stripSpaces st.covered).contains '_') = true →
        HG.playRound word n st (u :: rest) =
          HG.playRound word n
            ⟨st.covered, st.tried, st.scores, st.turn + 1, true⟩ rest)
    ∧ (∀ (word : List Char) (n : Nat) (st : SH.RState) (u : Char),
        u ≠ '.' → word.contains u = true →
        (SH.shTurn word n st u).scores =
          addAt st.scores (st.turn % n + 1 - 1) 1) := by
  refine ⟨hg_play_turn_repeat, ?_, ?_⟩
  · intro word n st u rest hu ht hb
    have hbm : '_' ∈ stripSpaces st.covered := by simpa using hb
    simp only [HG.playRound]
    rw [if_neg (by simp [hbm])]
    rw [hg_play_turn_repeat u word st.covered st.tried hu ht]
    simp [addAt_zero]
  · intro word n st u hu hw
    have hwm : u ∈ word := by simpa using hw
    simp [SH.shTurn, hu, hwm]

theorem C4_amended_repeat_guess_witness :
    HG.play_turn 'a' ['a', 'b'] ['a', ' ', '_'] ['a'] =
      ⟨true, ['a', ' ', '_'], 0, ['a']⟩ :=
  C4_amended_repeat_guess.1 'a' ['a', 'b'] ['a', ' ', '_'] ['a']
    (by decide) (by decide)

/-- C1 counterexample: in `src/Hangman_game/hangman_game.py`, quitting with
`'.'` ends the loop but the unconditional `word_list['words'].pop(word_index)`
still removes the current word: with the one-word pool `[{ab, h}]` the pool
after the quit is empty, not unchanged. -/
theorem C1_quit_pop_counterexample :
    (HG.mainStep [⟨['a', 'b'], "h"⟩] 0 1 [0] ['.']).2.running = false
    ∧ (HG.mainStep [⟨['a', 'b'], "h"⟩] 0 1 [0] ['.']).1 ≠
        [⟨['a', 'b'], "h"⟩] := by
  decide

/-- C1 amended: the quit sentinel `'.'` immediately ends the game loop in
both hangman variants, and in `src/hangman_game.py` the pool is left
unchanged (the pops are guarded by `if game_running:`); but in
`src/Hangman_game/hangman_game.py` the current word is still popped from the
pool, because the pop after the round loop is unconditional. -/
theorem C1_amended_quit_pool :
    (∀ (words : List (List Char)) (hints : List String) (idx n : Nat)
      (scores : List Int) (turn0 : Nat) (rest : List Char),
      words.getD idx [] ≠ [] →
      (SH.shMainStep words hints idx n scores turn0 ('.' :: rest)).1 =
        (words, hints)
      ∧ (SH.shMainStep words hints idx n scores turn0 ('.' :: rest)).2.running
          = false)
    ∧ (∀ (words : List HG.WEntry) (idx n : Nat) (scores : List Int)
        (inputs : List Char),
        (HG.mainStep words idx n scores inputs).1 = words.eraseIdx idx)
    ∧ (∀ (words : List HG.WEntry) (idx n : Nat) (scores : List Int)
        (rest : List Char), (words.getD idx ⟨[], ""⟩).word ≠ [] →
        (HG.mainStep words idx n scores ('.' :: rest)).2.running = false) := by
  refine ⟨?_, ?_, ?_⟩
  · intro words hints idx n scores turn0 rest hw
    set w := words.getD idx [] with hwdef
    have hbm : '_' ∈ SH.cowerdWord w := by
      simpa using cowerdWord_contains_blank _ hw
    have hst : SH.shRound w n ⟨SH.cowerdWord w, scores, turn0, true⟩
        ('.' :: rest) = ⟨SH.cowerdWord w, scores, turn0 % n + 1, false⟩ := by
      simp only [SH.shRound]
      rw [if_neg (by simp [hbm])]
      simp [SH.shTurn]
    constructor
    · simp only [SH.shMainStep]
      rw [← hwdef, hst]
      rfl
    · simp only [SH.shMainStep]
      rw [← hwdef, hst]
  · intro words idx n scores inputs
    rfl
  · intro words idx n scores rest hw
    set w := (words.getD idx ⟨[], ""⟩).word with hwdef
    have hbm : '_' ∈ stripSpaces (HG.display_covered_word w) := by
      simpa using display_contains_blank _ hw
    simp only [HG.mainStep, HG.playRound]
    rw [← hwdef]
    rw [if_neg (by simp [hbm])]
    simp [HG.play_turn]

theorem C1_amended_quit_pool_witness :
    (SH.shMainStep [['a']] ["h"] 0 1 [0] 0 ['.']).1 = ([['a']], ["h"]) :=
  (C1_amended_quit_pool.1 [['a']] ["h"] 0 1 [0] 0 [] (by decide)).1

/-- C2 counterexample: trivia's `main` handles an empty question list (the
result of every load failure) by printing an error and returning — the
process exit code is 0, not 1. -/
theorem C2_exit_code_counterexample :
    TG.trivia_main (TG.ArgsT.file []) = (0, TG.MainOutcome.noQuestions)
    ∧ (TG.trivia_main (TG.ArgsT.file [])).1 ≠ 1 := by
  decide

/-- C2 amended: `Hangman_game`'s `load_word_list` exits with code 1 on every
data-source failure (missing file, malformed JSON, missing or non-list
`words` key) and returns the word list otherwise, and 1 is the only error
exit code it produces; the trivia program, by contrast, returns normally
from `main` in every case — no data source, failed load / empty question
list, or a completed game — so its process exit code is always 0, never 1. -/
theorem C2_amended_exit_codes :
    (HG.load_word_list HG.FileRead.missing = Except.error 1)
    ∧ (HG.load_word_list HG.FileRead.badJson = Except.error 1)
    ∧ (∀ ws, HG.load_word_list (HG.FileRead.content false ws) =
        Except.error 1)
    ∧ (∀ ws, HG.load_word_list (HG.FileRead.content true ws) = Except.ok ws)
    ∧ (∀ (e : Nat) (f : HG.FileRead),
        HG.load_word_list f = Except.error e → e = 1)
    ∧ (∀ args : TG.ArgsT, (TG.trivia_main args).1 = 0) := by
  refine ⟨rfl, rfl, fun ws => rfl, fun ws => rfl, ?_, ?_⟩
  · intro e f h
    cases f with
    | missing => simpa [HG.load_word_list] using h.symm
    | badJson => simpa [HG.load_word_list] using h.symm
    | content b ws =>
      cases b with
      | false => simpa [HG.load_word_list] using h.symm
      | true => simp [HG.load_word_list] at h
  · intro args
    cases args with
    | noSource => rfl
    | file qs =>
      by_cases h : qs.isEmpty = true <;> simp [TG.trivia_main, h]
    | api qs =>
      by_cases h : qs.isEmpty = true <;> simp [TG.trivia_main, h]

theorem C2_amended_exit_codes_witness :
    (1 : Nat) = 1 ∧ (TG.trivia_main TG.ArgsT.noSource).1 = 0 :=
  ⟨C2_amended_exit_codes.2.2.2.2.1 1 (HG.FileRead.content false []) rfl,
    C2_amended_exit_codes.2.2.2.2.2 TG.ArgsT.noSource⟩

theorem strip_display_replicate (w : List Char) :
    stripSpaces (HG.display_covered_word w) = List.replicate w.length '_' := by
  induction w with
  | nil => rfl
  | cons a t ih =>
    have h1 : HG.display_covered_word (a :: t) =
        '_' :: ' ' :: HG.display_covered_word t := by
      simp [HG.display_covered_word]
    have h2 : stripSpaces ('_' :: ' ' :: HG.display_covered_word t) =
        '_' :: stripSpaces (HG.display_covered_word t) := by
      simp [stripSpaces]
    rw [h1, h2, ih, List.length_cons, List.replicate_succ]

theorem cowerdWord_eq_display (w : List Char) :
    SH.cowerdWord w = HG.display_covered_word w := rfl

theorem if_letter_eq_update (g : Char) (w cov : List Char) :
    SH.if_letter_in_word g w cov = (HG.update_covered_word g w cov).1 := by
  simp only [SH.if_letter_in_word, HG.update_covered_word]
  rw [sh_go_eq_update_go g w.enum (stripSpaces cov) 0]

/-- The space-stripped view of `update_covered_word`: under the round
invariant (each buffer slot is either the placeholder or the word's letter),
a guess `g` reveals exactly the positions of the word holding `g` and leaves
every other position unchanged, preserving the buffer length. -/
theorem update_stripped_spec (g : Char) (w cov : List Char)
    (hlen : (stripSpaces cov).length = w.length)
    (hinv : ∀ j : Nat, (stripSpaces cov)[j]? = some '_'
      ∨ (stripSpaces cov)[j]? = w[j]?)
    (hg1 : g ≠ '_') (hg2 : g ≠ ' ') :
    (stripSpaces (HG.update_covered_word g w cov).1).length = w.length
    ∧ ∀ j : Nat,
        ((stripSpaces (HG.update_covered_word g w cov).1)[j]? = some g ↔
          w[j]? = some g)
        ∧ (w[j]? ≠ some g →
            (stripSpaces (HG.update_covered_word g w cov).1)[j]? =
              (stripSpaces cov)[j]?) := by
  have hstrip := update_covered_word_strip g w cov hg2
  rw [hstrip]
  constructor
  · rw [update_go_length]
    exact hlen
  · intro j
    have hget := update_go_getElem? g w.enum (stripSpaces cov) 0 j
    by_cases hany : (w.enum.any (fun p => p.2 == g && p.1 == j)) = true
    · have hwj : w[j]? = some g := (enum_any_iff w g j).mp hany
      rw [hget, if_pos hany, set_getElem?_same]
      have hj : j < (stripSpaces cov).length := by
        rw [hlen]
        exact (List.getElem?_eq_some.mp hwj).1
      rw [if_pos hj]
      exact ⟨⟨fun _ => hwj, fun _ => rfl⟩, fun hne => absurd hwj hne⟩
    · have hwj : w[j]? ≠ some g := fun hcon =>
        hany ((enum_any_iff w g j).mpr hcon)
      rw [hget, if_neg hany]
      refine ⟨⟨?_, fun hcon => absurd hcon hwj⟩, fun _ => rfl⟩
      intro hsome
      rcases hinv j with h | h
      · rw [h] at hsome
        exact absurd (Option.some.inj hsome).symm hg1
      · rw [h] at hsome
        exact absurd hsome hwj

/-- C6: in both hangman variants the masked buffer, ignoring the separating
spaces, has length equal to the word length initially (it is all
placeholders) and after any guess; and after a guess of an alphabetic letter
`g`, position `j` of the buffer holds `g` exactly when position `j` of the
word holds `g`, while every other position keeps its previous value (stated
under the round invariant that each slot is the placeholder or the word's
letter, which initial buffers satisfy). -/
theorem C6_masked_buffer :
    (∀ w : List Char, stripSpaces (HG.display_covered_word w) =
        List.replicate w.length '_')
    ∧ (∀ w : List Char, stripSpaces (SH.cowerdWord w) =
        List.replicate w.length '_')
    ∧ (∀ (g : Char) (w cov : List Char),
        (stripSpaces cov).length = w.length →
        (∀ j : Nat, (stripSpaces cov)[j]? = some '_'
          ∨ (stripSpaces cov)[j]? = w[j]?) →
        g ≠ '_' → g ≠ ' ' →
        (stripSpaces (HG.update_covered_word g w cov).1).length = w.length
        ∧ ∀ j : Nat,
            ((stripSpaces (HG.update_covered_word g w cov).1)[j]? = some g ↔
              w[j]? = some g)
            ∧ (w[j]? ≠ some g →
                (stripSpaces (HG.update_covered_word g w cov).1)[j]? =
                  (stripSpaces cov)[j]?))
    ∧ (∀ (g : Char) (w cov : List Char),
        (stripSpaces cov).length = w.length →
        (∀ j : Nat, (stripSpaces cov)[j]? = some '_'
          ∨ (stripSpaces cov)[j]? = w[j]?) →
        g ≠ '_' → g ≠ ' ' →
        (stripSpaces (SH.if_letter_in_word g w cov)).length = w.length
        ∧ ∀ j : Nat,
            ((stripSpaces (SH.if_letter_in_word g w cov))[j]? = some g ↔
              w[j]? = some g)
            ∧ (w[j]? ≠ some g →
                (stripSpaces (SH.if_letter_in_word g w cov))[j]? =
                  (stripSpaces cov)[j]?)) := by
  refine ⟨strip_display_replicate,
    fun w => by rw [cowerdWord_eq_display]; exact strip_display_replicate w,
    update_stripped_spec, ?_⟩
  intro g w cov hlen hinv hg1 hg2
  rw [if_letter_eq_update]
  exact update_stripped_spec g w cov hlen hinv hg1 hg2

theorem C6_masked_buffer_witness :
    (stripSpaces (HG.update_covered_word 'a' ['a', 'b']
        (HG.display_covered_word ['a', 'b'])).1).length =
      (['a', 'b'] : List Char).length :=
  (C6_masked_buffer.2.2.1 'a' ['a', 'b'] (HG.display_covered_word ['a', 'b'])
    (by decide)
    (fun j =>
      match j with
      | 0 => Or.inl rfl
      | 1 => Or.inl rfl
      | Nat.succ (Nat.succ k) => Or.inr rfl)
    (by decide) (by decide)).1
